import Mathlib

/-!
Verification of the dotnet-version-manager core (src/main.rs) against its
natural-language specification.

The development shallowly embeds the three spec-relevant pieces of the
program:

* the inventory parser `list_installed_sdks` (main.rs lines 226-246), which
  turns the line-oriented output of a "dotnet --list-sdks" query into a
  list of (version, installPath) records;
* the selector and safe-remover of the `Uninstall` command (main.rs lines
  479-521), including the computation of the trusted roots, selector
  filtering, and the per-target removal loop;
* the version-pin writer of the `Use` command (main.rs lines 451-465).

Rust strings are embedded as Lean `String`, but every operation is defined
structurally on the underlying character list (`String.data`) so that all
definitions are executable and all concrete statements are decidable.
Filesystem paths are embedded by their component view (Unix semantics):
`Rust`'s `Path` operations `push`, `parent`, `starts_with`, comparison and
equality are all specified on `std::path::Component` sequences, which the
type `UPath` below models directly.
-/

/-- Unicode white-space predicate, modelling Rust `char::is_whitespace`
(the White_Space property): the code points 09-0D, 20, 85, A0, 1680,
2000-200A, 2028, 2029, 202F, 205F, 3000. -/
def isRustWhite (c : Char) : Bool :=
  [0x09, 0x0A, 0x0B, 0x0C, 0x0D, 0x20, 0x85, 0xA0, 0x1680,
   0x2000, 0x2001, 0x2002, 0x2003, 0x2004, 0x2005, 0x2006, 0x2007,
   0x2008, 0x2009, 0x200A, 0x2028, 0x2029, 0x202F, 0x205F, 0x3000].contains c.toNat

/-- Both-ends white-space trim on a character list, modelling
Rust `str::trim`. -/
def rustTrimList (l : List Char) : List Char :=
  ((l.dropWhile isRustWhite).reverse.dropWhile isRustWhite).reverse

/-- Rust `str::trim` on strings. -/
def rustTrim (s : String) : String :=
  String.mk (rustTrimList s.data)

/-- First whitespace-delimited token of a character list; models the chain
`s.trim().split_whitespace().next().unwrap_or("")` from main.rs line 237:
drop leading white space, then take characters up to the next white space. -/
def firstTokenList (l : List Char) : List Char :=
  (l.dropWhile isRustWhite).takeWhile (fun c => !isRustWhite c)

/-- String version of `firstTokenList`. -/
def firstToken (s : String) : String :=
  String.mk (firstTokenList s.data)

/-- Fuel-driven helper for `rustTrimEndMatchesRB`; the fuel only bounds the
number of stripping steps, which never exceeds the length of the list. -/
def rustTrimEndMatchesRBAux : Nat → List Char → List Char
  | 0, l => l
  | fuel + 1, l => if l.getLast? = some ']' then rustTrimEndMatchesRBAux fuel l.dropLast else l

/-- Rust `str::trim_end_matches(']')`: repeatedly removes a trailing right
bracket, until the string no longer ends in one. -/
def rustTrimEndMatchesRB (l : List Char) : List Char :=
  rustTrimEndMatchesRBAux l.length l

/-- The base extraction of main.rs line 238:
`path_part.trim().trim_end_matches(']').trim()`. -/
def extractBase (s : String) : String :=
  String.mk (rustTrimList (rustTrimEndMatchesRB (rustTrimList s.data)))

/-- Helper for `splitOnceLB`: scan for the first left bracket, keeping the
already-scanned characters reversed in `acc`. -/
def splitOnceLBAux : List Char → List Char → Option (List Char × List Char)
  | [], _ => none
  | c :: cs, acc => if c = '[' then some (acc.reverse, cs) else splitOnceLBAux cs (c :: acc)

/-- Rust `str::split_once('[')` (main.rs line 236): split at the first
left bracket, returning the text before and after it, or `none` when the
string has no left bracket. -/
def splitOnceLB (s : String) : Option (String × String) :=
  (splitOnceLBAux s.data []).map (fun p => (String.mk p.1, String.mk p.2))

/-- Strip one leading carriage return from a reversed line accumulator;
part of the `str::lines` embedding (a line terminated by CRLF loses the
carriage return). -/
def dropCRHead : List Char → List Char
  | c :: t => if c = '\r' then t else c :: t
  | [] => []

/-- Helper for `rustLines`: `acc` holds the current line reversed. -/
def rustLinesAux : List Char → List Char → List String
  | [], acc => if acc = [] then [] else [String.mk acc.reverse]
  | c :: cs, acc =>
    if c = '\n' then String.mk (dropCRHead acc).reverse :: rustLinesAux cs []
    else rustLinesAux cs (c :: acc)

/-- Rust `str::lines` (main.rs line 235): split at newline characters,
strip a carriage return that immediately preceded a newline, and do not
produce an empty final line for a trailing newline. -/
def rustLines (s : String) : List String :=
  rustLinesAux s.data []

/-- One Unix path component, modelling `std::path::Component`
(the Windows-only prefix component omitted). -/
inductive Comp where
  | rootDir : Comp
  | curDir : Comp
  | parentDir : Comp
  | normal (s : String) : Comp
deriving DecidableEq

/-- A path, embedded as its component sequence; an absolute path starts
with `Comp.rootDir`.  Rust `Path` equality, ordering, `parent` and
`starts_with` are all specified on this component view, which is why the
embedding uses it directly as the path representation. -/
abbrev UPath := List Comp

/-- A non-special path segment: `..` is the parent-directory component,
anything else surviving the segment filter is a normal component. -/
def segToComp (seg : String) : Comp :=
  if seg = ".." then Comp.parentDir else Comp.normal seg

/-- Helper for `splitSlash`. -/
def splitSlashAux : List Char → List Char → List String
  | [], acc => [String.mk acc.reverse]
  | c :: cs, acc =>
    if c = '/' then String.mk acc.reverse :: splitSlashAux cs []
    else splitSlashAux cs (c :: acc)

/-- Split a string at every slash, keeping empty segments
(Rust `str::split('/')`). -/
def splitSlash (s : String) : List String :=
  splitSlashAux s.data []

/-- The non-special components of a path string: empty segments and `.`
segments are normalized away, exactly as in `std::path::Components`. -/
def pathSegs (s : String) : List Comp :=
  (((splitSlash s).filter (fun t => !(t == "") && !(t == "."))).map segToComp)

/-- Whether a path string is absolute (Unix: starts with a slash). -/
def isAbsStr (s : String) : Bool :=
  match s.data with
  | c :: _ => c = '/'
  | [] => false

/-- Whether a relative path string starts with a literal `.` component:
Rust keeps a leading `CurDir` component exactly when the path has no root
and begins with `.` followed by nothing or a separator. -/
def hasCurDirStart (s : String) : Bool :=
  match s.data with
  | ['.'] => true
  | c :: d :: _ => c = '.' && d = '/'
  | _ => false

/-- Parse a path string into its component sequence, modelling
`PathBuf::from` followed by the `Components` normalization (Unix). -/
def pathOfString (s : String) : UPath :=
  if isAbsStr s then Comp.rootDir :: pathSegs s
  else if hasCurDirStart s then Comp.curDir :: pathSegs s
  else pathSegs s

/-- Rust `PathBuf::push` of a path string (main.rs line 241): an absolute
argument replaces the whole buffer; pushing onto the empty buffer yields
the argument as parsed; otherwise the argument is appended after a
separator, so its segments are appended with any `.` normalized away
(a `CurDir` survives only at the very start of a path). -/
def pathPush (p : UPath) (s : String) : UPath :=
  let q := pathOfString s
  match q with
  | Comp.rootDir :: _ => q
  | _ => if p = [] then q else p ++ q.filter (fun c => !(c == Comp.curDir))

/-- Rust `Path::parent`: drop the final component; `none` for the empty
path and for a path that terminates in the root. -/
def pathParent (p : UPath) : Option UPath :=
  match p.getLast? with
  | none => none
  | some Comp.rootDir => none
  | some _ => some p.dropLast

/-- Rust `Path::starts_with` (main.rs line 506): component-wise prefix
test, true also when the two paths are equal. -/
def pathStartsWith (p base : UPath) : Bool :=
  base.isPrefixOf p

/-- Parse one line of `dotnet --list-sdks` output (main.rs lines 236-243):
split at the first left bracket; the version is the first
whitespace-delimited token of the text before it, the base is the trimmed,
right-bracket-stripped text after it; a line with no bracket, an empty
version or an empty base yields no record; otherwise the record pairs the
version with `PathBuf::from(base)` pushed with the version. -/
def parseSdkLine (line : String) : Option (String × UPath) :=
  match splitOnceLB line with
  | none => none
  | some (verPart, pathPart) =>
    let version := firstToken verPart
    let base := extractBase pathPart
    if version = "" ∨ base = "" then none
    else some (version, pathPush (pathOfString base) version)

/-- The pure core of `list_installed_sdks` (main.rs lines 233-245): parse
every line of the query output, dropping lines that yield no record. -/
def listInstalledSdksParse (out : String) : List (String × UPath) :=
  (rustLines out).filterMap parseSdkLine

/-- Rust `Vec::dedup`: remove consecutive duplicate elements. -/
def dedupConsec {α : Type} [DecidableEq α] : List α → List α
  | [] => []
  | [a] => [a]
  | a :: b :: rest => if a = b then dedupConsec (b :: rest) else a :: dedupConsec (b :: rest)

/-- Order key of one component, injective and respecting the derived
`Component` order of Rust (RootDir before CurDir before ParentDir before
Normal, Normal compared by its text): a constructor tag followed by the
character codes of the text. -/
def Comp.key : Comp → List Nat
  | Comp.rootDir => [0]
  | Comp.curDir => [1]
  | Comp.parentDir => [2]
  | Comp.normal s => 3 :: s.data.map Char.toNat

/-- Order key of a path: the component keys, compared lexicographically. -/
def pathKey (p : UPath) : List (List Nat) :=
  p.map Comp.key

/-- Total order on paths used for `Vec::sort`, modelling the `Ord`
instance of `PathBuf` (lexicographic on components). -/
def pathLe (p q : UPath) : Prop :=
  pathKey p ≤ pathKey q

instance : DecidableRel pathLe :=
  fun p q => inferInstanceAs (Decidable (pathKey p ≤ pathKey q))

instance : IsTotal UPath pathLe :=
  ⟨fun p q => le_total (pathKey p) (pathKey q)⟩

instance : IsTrans UPath pathLe :=
  ⟨fun _ _ _ h1 h2 => le_trans h1 h2⟩

/-- The trusted roots of the `Uninstall` command (main.rs lines 481-486):
the parent of every installPath of the whole inventory, collected before
any selector filtering, then sorted and deduplicated.  `Vec::sort` is a
stable sort by the path order; it is embedded here as an insertion sort,
which is also stable, and two stable sorts by the same total order agree
on every input. -/
def computeRoots (sdks : List (String × UPath)) : List UPath :=
  dedupConsec (List.insertionSort pathLe (sdks.filterMap (fun e => pathParent e.2)))

/-- Rust `String::contains('.')`. -/
def containsDot (v : String) : Bool :=
  v.data.contains '.'

/-- Rust `str::starts_with` on strings: character-wise prefix test. -/
def strStartsWith (s pre : String) : Bool :=
  pre.data.isPrefixOf s.data

/-- The selector of the `Uninstall` command (main.rs lines 488-500): with
the all flag the whole inventory is targeted; a version string containing
a dot selects by string equality; one without a dot selects the versions
starting with the string followed by a dot; with neither input the target
list is empty. -/
def computeTargets (sdks : List (String × UPath)) (version : Option String)
    (all : Bool) : List (String × UPath) :=
  if all then sdks
  else
    match version with
    | some v =>
      if containsDot v then sdks.filter (fun e => e.1 == v)
      else sdks.filter (fun e => strStartsWith e.1 (v ++ "."))
    | none => []

/-- The messages the `Uninstall` command can emit, one constructor per
print site of main.rs lines 498-517. -/
inductive Msg where
  | provideVersion : Msg
  | noMatching : Msg
  | skippedUnsafe (version : String) (path : UPath) : Msg
  | removed (version : String) : Msg
  | removeFailed (version : String) (cause : String) : Msg
  | notFound (version : String) : Msg
deriving DecidableEq

/-- The notice of main.rs line 498, emitted exactly when neither a version
nor the all flag was supplied. -/
def noticeMsgs (version : Option String) (all : Bool) : List Msg :=
  if all then []
  else
    match version with
    | some _ => []
    | none => [Msg.provideVersion]

/-- Abstract filesystem state for the remover: the set of existing
directories, and, for each path whose recursive removal would fail, the
error text it would fail with. -/
structure FS where
  dirs : List UPath
  failRm : List (UPath × String)
deriving DecidableEq

/-- Rust `Path::exists` against the abstract filesystem. -/
def FS.existsDir (fs : FS) (p : UPath) : Bool :=
  fs.dirs.contains p

/-- The error a `remove_dir_all` at `p` would report, when the abstract
filesystem marks that removal as failing. -/
def FS.rmError (fs : FS) (p : UPath) : Option String :=
  (fs.failRm.find? (fun q => q.1 == p)).map (fun q => q.2)

/-- Successful `std::fs::remove_dir_all`: the directory and every
descendant of it disappear. -/
def FS.removeTree (fs : FS) (p : UPath) : FS :=
  { fs with dirs := fs.dirs.filter (fun d => !pathStartsWith d p) }

/-- The per-target removal loop of main.rs lines 505-519: for each target
in order, skip it when its path is under no known root; otherwise report
the directory missing, or remove it, or report the removal failure; every
branch continues with the remaining targets. -/
def uninstallRun (roots : List UPath) : List (String × UPath) → FS → List Msg × FS
  | [], fs => ([], fs)
  | (ver, path) :: rest, fs =>
    if roots.any (fun r => pathStartsWith path r) then
      if fs.existsDir path then
        match fs.rmError path with
        | some e =>
          let r := uninstallRun roots rest fs
          (Msg.removeFailed ver e :: r.1, r.2)
        | none =>
          let r := uninstallRun roots rest (fs.removeTree path)
          (Msg.removed ver :: r.1, r.2)
      else
        let r := uninstallRun roots rest fs
        (Msg.notFound ver :: r.1, r.2)
    else
      let r := uninstallRun roots rest fs
      (Msg.skippedUnsafe ver path :: r.1, r.2)

/-- The whole `Uninstall` arm given an already-obtained inventory
(main.rs lines 479-521): compute roots from the full inventory, then the
targets from the selector; with no targets report that nothing matched,
otherwise run the removal loop. -/
def uninstallCmd (sdks : List (String × UPath)) (version : Option String)
    (all : Bool) (fs : FS) : List Msg × FS :=
  let roots := computeRoots sdks
  let targets := computeTargets sdks version all
  let notice := noticeMsgs version all
  if targets.isEmpty then (notice ++ [Msg.noMatching], fs)
  else
    let r := uninstallRun roots targets fs
    (notice ++ r.1, r.2)

/-- The `Uninstall` arm including the fallible inventory query: a failing
`dotnet --list-sdks` invocation aborts the command with a hard error
(main.rs line 480); otherwise the arm always completes successfully. -/
def uninstallArm (listing : Except String (List (String × UPath)))
    (version : Option String) (all : Bool) (fs : FS) :
    Except String (List Msg × FS) :=
  match listing with
  | Except.error e => Except.error e
  | Except.ok sdks => Except.ok (uninstallCmd sdks version all fs)

/-- Content of a file in the working directory.  `FileData.pin v` stands
for the pretty-printed serde serialization of the JSON document built at
main.rs lines 452-456, namely a single object with an "sdk" object holding
a "version" field with value `v`; `FileData.raw` is arbitrary prior byte
content. -/
inductive FileData where
  | pin (version : String) : FileData
  | raw (bytes : String) : FileData
deriving DecidableEq

/-- Look a file up in a working directory, embedded as an association list
from file name to content. -/
def lookupFile (dir : List (String × FileData)) (name : String) : Option FileData :=
  (dir.find? (fun e => e.1 == name)).map (fun e => e.2)

/-- Create or overwrite a file in the working directory. -/
def setFile (dir : List (String × FileData)) (name : String) (c : FileData) :
    List (String × FileData) :=
  (name, c) :: dir.filter (fun e => !(e.1 == name))

/-- The `Use` arm (main.rs lines 451-465): when `global.json` exists its
content is first copied to `global.json.bak` (the result of
`with_extension("json.bak")` on the stem `global`), with the copy failure
ignored; then `global.json` is created and the pin document for the
requested version is written to it.  `copyOk` models whether the
best-effort `fs::copy` succeeds. -/
def useCmd (version : String) (dir : List (String × FileData)) (copyOk : Bool) :
    List (String × FileData) :=
  let dir1 :=
    match lookupFile dir "global.json" with
    | some c => if copyOk then setFile dir "global.json.bak" c else dir
    | none => dir
  setFile dir1 "global.json" (FileData.pin version)

/-- Modelled from the spec, for claim C9: the base extraction as the claim
words it, removing a SINGLE trailing right bracket (Rust
`strip_suffix(']')`) between the two trims, rather than all of them. -/
def claimBaseSingle (s : String) : String :=
  let t := rustTrimList s.data
  let u := if t.getLast? = some ']' then t.dropLast else t
  String.mk (rustTrimList u)

/-- The amended description of the base extraction: all trailing right
brackets are removed between the two trims (stated independently of
`rustTrimEndMatchesRB`, via a reversed `dropWhile`). -/
def specBaseAll (s : String) : String :=
  String.mk (rustTrimList ((rustTrimList s.data).reverse.dropWhile (fun c => c == ']')).reverse)

/-! ## Helper lemmas: deduplication, path order, roots -/

theorem mem_dedupConsec {α : Type} [DecidableEq α] (l : List α) (x : α) :
    x ∈ dedupConsec l ↔ x ∈ l := by
  induction l with
  | nil => simp [dedupConsec]
  | cons a rest ih =>
    cases rest with
    | nil => simp [dedupConsec]
    | cons b rest2 =>
      by_cases hab : a = b
      · subst hab
        have hstep : dedupConsec (a :: a :: rest2) = dedupConsec (a :: rest2) := by
          simp [dedupConsec]
        rw [hstep, ih]
        simp
      · have hstep : dedupConsec (a :: b :: rest2) = a :: dedupConsec (b :: rest2) := by
          simp [dedupConsec, hab]
        rw [hstep]
        simp [ih]

theorem dedupConsec_nodup {α : Type} [DecidableEq α] {le : α → α → Prop}
    (hanti : ∀ a b, le a b → le b a → a = b) :
    ∀ l : List α, l.Pairwise le → (dedupConsec l).Nodup := by
  intro l
  induction l with
  | nil => intro _; simp [dedupConsec]
  | cons a rest ih =>
    intro hp
    rw [List.pairwise_cons] at hp
    cases rest with
    | nil => simp [dedupConsec]
    | cons b rest2 =>
      by_cases hab : a = b
      · subst hab
        have hstep : dedupConsec (a :: a :: rest2) = dedupConsec (a :: rest2) := by
          simp [dedupConsec]
        rw [hstep]
        exact ih hp.2
      · have hstep : dedupConsec (a :: b :: rest2) = a :: dedupConsec (b :: rest2) := by
          simp [dedupConsec, hab]
        rw [hstep]
        refine List.nodup_cons.mpr ⟨?_, ih hp.2⟩
        intro hmem
        have hmem2 : a ∈ b :: rest2 := (mem_dedupConsec _ _).mp hmem
        rcases List.mem_cons.mp hmem2 with h | h
        · exact hab h
        · have h1 : le a b := hp.1 b (List.mem_cons_self _ _)
          have h2 : le b a := (List.pairwise_cons.mp hp.2).1 a h
          exact hab (hanti a b h1 h2)

theorem charToNat_injective {a b : Char} (h : a.toNat = b.toNat) : a = b :=
  Char.eq_of_val_eq (UInt32.ext h)

theorem compKey_injective : ∀ c d : Comp, c.key = d.key → c = d := by
  intro c d h
  cases c <;> cases d <;> simp [Comp.key] at h ⊢
  case normal.normal s t =>
    have hdata : s.data = t.data :=
      List.map_injective_iff.mpr (fun a b hab => charToNat_injective hab) h
    have := congrArg String.mk hdata
    simpa using this

theorem pathKey_injective : ∀ p q : UPath, pathKey p = pathKey q → p = q := by
  intro p q h
  exact List.map_injective_iff.mpr (fun a b hab => compKey_injective a b hab) h

theorem pathLe_antisymm {p q : UPath} (h1 : pathLe p q) (h2 : pathLe q p) : p = q :=
  pathKey_injective p q (le_antisymm h1 h2)

theorem mem_computeRoots (sdks : List (String × UPath)) (r : UPath) :
    r ∈ computeRoots sdks ↔ ∃ e ∈ sdks, pathParent e.2 = some r := by
  unfold computeRoots
  rw [mem_dedupConsec]
  rw [(List.perm_insertionSort pathLe _).mem_iff]
  simp [List.mem_filterMap]

theorem computeRoots_nodup (sdks : List (String × UPath)) :
    (computeRoots sdks).Nodup := by
  unfold computeRoots
  exact dedupConsec_nodup (fun a b h1 h2 => pathLe_antisymm h1 h2) _
    (List.sorted_insertionSort pathLe _)

/-! ## Helper lemmas: path containment and the removal loop -/

theorem pathStartsWith_trans {p q r : UPath} (h1 : pathStartsWith p q = true)
    (h2 : pathStartsWith q r = true) : pathStartsWith p r = true := by
  unfold pathStartsWith at h1 h2 ⊢
  rw [ List.isPrefixOf_iff_prefix] at h1 h2 ⊢
  exact h2.trans h1

theorem pathStartsWith_parent {p pp : UPath} (h : pathParent p = some pp) :
    pathStartsWith p pp = true := by
  have hpp : pp = p.dropLast := by
    unfold pathParent at h
    cases hl : p.getLast? with
    | none => rw [hl] at h; simp at h
    | some c =>
      rw [hl] at h
      cases c <;> simp_all
  subst hpp
  unfold pathStartsWith
  rw [ List.isPrefixOf_iff_prefix]
  exact List.dropLast_prefix p

theorem uninstallRun_length (roots : List UPath) :
    ∀ (ts : List (String × UPath)) (fs : FS),
      (uninstallRun roots ts fs).1.length = ts.length := by
  intro ts
  induction ts with
  | nil => intro fs; rfl
  | cons t rest ih =>
    intro fs
    obtain ⟨ver, path⟩ := t
    cases h1 : roots.any (fun r => pathStartsWith path r) with
    | false => simp [uninstallRun, h1, ih]
    | true =>
      cases h2 : fs.existsDir path with
      | false => simp [uninstallRun, h1, h2, ih]
      | true =>
        cases h3 : fs.rmError path with
        | none => simp [uninstallRun, h1, h2, h3, ih]
        | some e => simp [uninstallRun, h1, h2, h3, ih]

theorem uninstallRun_preserves {roots : List UPath} {p : UPath}
    (hp : roots.any (fun r => pathStartsWith p r) = false) :
    ∀ (ts : List (String × UPath)) (fs : FS),
      p ∈ fs.dirs → p ∈ (uninstallRun roots ts fs).2.dirs := by
  intro ts
  induction ts with
  | nil => intro fs h; exact h
  | cons t rest ih =>
    intro fs hmem
    obtain ⟨ver, q⟩ := t
    cases h1 : roots.any (fun r => pathStartsWith q r) with
    | false =>
      simp only [uninstallRun, h1]
      exact ih fs hmem
    | true =>
      cases h2 : fs.existsDir q with
      | false =>
        simp only [uninstallRun, h1, h2]
        simp only [Bool.false_eq_true, if_false, if_true]
        exact ih fs hmem
      | true =>
        cases h3 : fs.rmError q with
        | some e =>
          simp only [uninstallRun, h1, h2, h3, if_true]
          exact ih fs hmem
        | none =>
          simp only [uninstallRun, h1, h2, h3, if_true]
          apply ih
          unfold FS.removeTree
          simp only [List.mem_filter]
          refine ⟨hmem, ?_⟩
          have hnot : pathStartsWith p q = false := by
            cases hpq : pathStartsWith p q with
            | false => rfl
            | true =>
              exfalso
              rcases List.any_eq_true.mp h1 with ⟨r, hr, hqr⟩
              have : pathStartsWith p r = true := pathStartsWith_trans hpq hqr
              have : roots.any (fun r => pathStartsWith p r) = true :=
                List.any_eq_true.mpr ⟨r, hr, this⟩
              rw [hp] at this
              exact Bool.false_ne_true this
          simp [hnot]

theorem uninstallRun_skipped {roots : List UPath} {p : UPath}
    (hp : roots.any (fun r => pathStartsWith p r) = false) :
    ∀ (ts : List (String × UPath)) (fs : FS) (ver : String),
      (ver, p) ∈ ts → Msg.skippedUnsafe ver p ∈ (uninstallRun roots ts fs).1 := by
  intro ts
  induction ts with
  | nil => intro fs ver h; cases h
  | cons t rest ih =>
    intro fs ver hmem
    obtain ⟨w, q⟩ := t
    rcases List.mem_cons.mp hmem with h | h
    · injection h with hw hq
      subst hw
      subst hq
      simp only [uninstallRun, hp, Bool.false_eq_true, if_false]
      exact List.mem_cons_self _ _
    · cases h1 : roots.any (fun r => pathStartsWith q r) with
      | false =>
        simp only [uninstallRun, h1]
        exact List.mem_cons_of_mem _ (ih fs ver h)
      | true =>
        cases h2 : fs.existsDir q with
        | false =>
          simp only [uninstallRun, h1, h2]
          simp only [Bool.false_eq_true, if_false, if_true]
          exact List.mem_cons_of_mem _ (ih fs ver h)
        | true =>
          cases h3 : fs.rmError q with
          | some e =>
            simp only [uninstallRun, h1, h2, h3, if_true]
            exact List.mem_cons_of_mem _ (ih _ ver h)
          | none =>
            simp only [uninstallRun, h1, h2, h3, if_true]
            exact List.mem_cons_of_mem _ (ih _ ver h)

/-! ## Helper lemmas: the line parser -/

theorem splitOnceLBAux_not_found {l : List Char} (h : '[' ∉ l) :
    ∀ acc, splitOnceLBAux l acc = none := by
  induction l with
  | nil => intro _; rfl
  | cons c cs ih =>
    intro acc
    by_cases hc : c = '['
    · subst hc
      exact absurd (List.mem_cons_self _ _) h
    · simp only [splitOnceLBAux, if_neg hc]
      exact ih (fun hm => h (List.mem_cons_of_mem _ hm)) _

theorem splitOnceLBAux_found {a : List Char} (h : '[' ∉ a) (b : List Char) :
    ∀ acc, splitOnceLBAux (a ++ '[' :: b) acc = some (acc.reverse ++ a, b) := by
  induction a with
  | nil => intro acc; simp [splitOnceLBAux]
  | cons c cs ih =>
    intro acc
    have hc : ¬ c = '[' := fun he => by
      subst he
      exact h (List.mem_cons_self _ _)
    simp only [List.cons_append, splitOnceLBAux, if_neg hc, List.append_eq]
    rw [ih (fun hm => h (List.mem_cons_of_mem _ hm)) (c :: acc)]
    simp

theorem takeWhile_token {l : List Char} (hall : ∀ c ∈ l, isRustWhite c = false)
    (rest : List Char) :
    (l ++ ' ' :: rest).takeWhile (fun c => !isRustWhite c) = l := by
  induction l with
  | nil =>
    have hw : isRustWhite ' ' = true := by decide
    simp [List.takeWhile_cons, hw]
  | cons c cs ih =>
    have hc := hall c (List.mem_cons_self _ _)
    simp only [List.cons_append, List.takeWhile_cons, hc, Bool.not_false, if_true]
    rw [ih (fun x hx => hall x (List.mem_cons_of_mem _ hx))]

theorem firstTokenList_token {l : List Char} (hne : l ≠ [])
    (hall : ∀ c ∈ l, isRustWhite c = false) (rest : List Char) :
    firstTokenList (l ++ ' ' :: rest) = l := by
  unfold firstTokenList
  cases l with
  | nil => exact absurd rfl hne
  | cons c cs =>
    have hc := hall c (List.mem_cons_self _ _)
    simp only [List.cons_append, List.dropWhile_cons, hc, Bool.false_eq_true, if_false]
    have := takeWhile_token (l := c :: cs) hall rest
    simpa using this

theorem rustTrimList_eq_self {l : List Char}
    (hhead : ∀ c, l.head? = some c → isRustWhite c = false)
    (hlast : ∀ c, l.getLast? = some c → isRustWhite c = false) :
    rustTrimList l = l := by
  unfold rustTrimList
  have h1 : l.dropWhile isRustWhite = l := by
    cases l with
    | nil => rfl
    | cons c cs => simp [List.dropWhile_cons, hhead c rfl]
  rw [h1]
  have h2 : l.reverse.dropWhile isRustWhite = l.reverse := by
    cases hr : l.reverse with
    | nil => rfl
    | cons c cs =>
      have hcl : l.getLast? = some c := by
        rw [← List.head?_reverse, hr]
        rfl
      simp [List.dropWhile_cons, hlast c hcl]
  rw [h2, List.reverse_reverse]

theorem rustTrimEndMatchesRBAux_stop {l : List Char}
    (h : ∀ c, l.getLast? = some c → c ≠ ']') :
    ∀ fuel, rustTrimEndMatchesRBAux fuel l = l := by
  intro fuel
  cases fuel with
  | zero => rfl
  | succ n =>
    simp only [rustTrimEndMatchesRBAux]
    rw [if_neg]
    intro hc
    exact h ']' hc rfl

theorem rustTrimEndMatchesRB_concat {b : List Char}
    (h : ∀ c, b.getLast? = some c → c ≠ ']') :
    rustTrimEndMatchesRB (b ++ [']']) = b := by
  unfold rustTrimEndMatchesRB
  have hlen : (b ++ [']']).length = b.length + 1 := by simp
  rw [hlen]
  simp only [rustTrimEndMatchesRBAux, List.getLast?_concat, if_pos rfl, List.dropLast_concat]
  exact rustTrimEndMatchesRBAux_stop h _

theorem extractBase_eval {b : List Char}
    (hhead : ∀ c, b.head? = some c → isRustWhite c = false)
    (hlast : ∀ c, b.getLast? = some c → isRustWhite c = false ∧ c ≠ ']') :
    extractBase (String.mk (b ++ [']'])) = String.mk b := by
  unfold extractBase
  have hd : (String.mk (b ++ [']'])).data = b ++ [']'] := rfl
  rw [hd]
  have ht1 : rustTrimList (b ++ [']']) = b ++ [']'] := by
    apply rustTrimList_eq_self
    · intro c hc
      cases b with
      | nil =>
        simp at hc
        subst hc
        decide
      | cons x xs =>
        simp at hc
        subst hc
        exact hhead x rfl
    · intro c hc
      rw [List.getLast?_concat] at hc
      injection hc with hc
      subst hc
      decide
  rw [ht1]
  rw [rustTrimEndMatchesRB_concat (fun c hc => (hlast c hc).2)]
  rw [rustTrimList_eq_self hhead (fun c hc => (hlast c hc).1)]

theorem dropCRHead_eq_self {l : List Char} (h : l.head? ≠ some '\r') :
    dropCRHead l = l := by
  cases l with
  | nil => rfl
  | cons c t =>
    simp only [dropCRHead]
    rw [if_neg]
    intro hc
    subst hc
    exact h rfl

theorem rustLinesAux_split {s : List Char} (h : '\n' ∉ s) (t : List Char) :
    ∀ acc, rustLinesAux (s ++ '\n' :: t) acc =
      String.mk (dropCRHead (s.reverse ++ acc)).reverse :: rustLinesAux t [] := by
  induction s with
  | nil => intro acc; simp [rustLinesAux]
  | cons c cs ih =>
    intro acc
    have hc : ¬ c = '\n' := fun he => by
      subst he
      exact h (List.mem_cons_self _ _)
    simp only [List.cons_append, rustLinesAux, if_neg hc, List.append_eq]
    rw [ih (fun hm => h (List.mem_cons_of_mem _ hm)) (c :: acc)]
    simp

theorem listInstalledSdksParse_skip {s : String} (hn : '\n' ∉ s.data)
    (hcr : s.data.getLast? ≠ some '\r') (hbad : parseSdkLine s = none) (t : String) :
    listInstalledSdksParse (s ++ "\n" ++ t) = listInstalledSdksParse t := by
  unfold listInstalledSdksParse rustLines
  have hd : (s ++ "\n" ++ t).data = s.data ++ '\n' :: t.data := by
    simp [String.data_append]
  rw [hd]
  rw [rustLinesAux_split hn t.data []]
  have h1 : dropCRHead (s.data.reverse ++ []) = s.data.reverse := by
    rw [List.append_nil]
    apply dropCRHead_eq_self
    rw [List.head?_reverse]
    exact hcr
  rw [h1, List.reverse_reverse]
  have hs : String.mk s.data = s := rfl
  rw [hs]
  exact List.filterMap_cons_none hbad

theorem rustTrimEndMatchesRBAux_eq {l : List Char} :
    ∀ fuel, l.length ≤ fuel →
      rustTrimEndMatchesRBAux fuel l = (l.reverse.dropWhile (fun c => c == ']')).reverse := by
  induction l using List.reverseRecOn with
  | nil =>
    intro fuel _
    cases fuel <;> rfl
  | append_singleton l' c ih =>
    intro fuel hlen
    cases fuel with
    | zero =>
      exfalso
      simp at hlen
    | succ n =>
      by_cases hc : c = ']'
      · subst hc
        simp only [rustTrimEndMatchesRBAux, List.getLast?_concat, if_pos rfl,
          List.dropLast_concat]
        rw [ih n (by simp at hlen; omega)]
        simp [List.reverse_append, List.dropWhile_cons]
      · simp only [rustTrimEndMatchesRBAux, List.getLast?_concat]
        rw [if_neg (by simpa using hc)]
        simp [List.reverse_append, List.dropWhile_cons, hc]

theorem rustTrimEndMatchesRB_eq_dropWhile (l : List Char) :
    rustTrimEndMatchesRB l = (l.reverse.dropWhile (fun c => c == ']')).reverse :=
  rustTrimEndMatchesRBAux_eq l.length (le_refl _)

/-! ## Helper lemmas: the Uninstall command shell -/

theorem uninstallCmd_empty (sdks : List (String × UPath)) (version : Option String)
    (all : Bool) (fs : FS) (h : computeTargets sdks version all = []) :
    uninstallCmd sdks version all fs = (noticeMsgs version all ++ [Msg.noMatching], fs) := by
  unfold uninstallCmd
  rw [h]
  rfl

theorem uninstallCmd_run (sdks : List (String × UPath)) (version : Option String)
    (all : Bool) (fs : FS) (h : computeTargets sdks version all ≠ []) :
    uninstallCmd sdks version all fs =
      (noticeMsgs version all ++
        (uninstallRun (computeRoots sdks) (computeTargets sdks version all) fs).1,
       (uninstallRun (computeRoots sdks) (computeTargets sdks version all) fs).2) := by
  unfold uninstallCmd
  rw [if_neg]
  intro he
  exact h (List.isEmpty_iff.mp he)

/-! ## Claim theorems -/

/-- C1: for every inventory and every selector, a removal target whose
installPath is not equal to or a descendant of some member of the computed
roots is never deleted (whenever it existed before the command it still
exists afterwards), every target carrying that path is reported as skipped
for safety, and the batch is not aborted: the removal loop emits exactly
one message per target. -/
theorem claim_C1 (sdks : List (String × UPath)) (version : Option String)
    (all : Bool) (fs : FS) (p : UPath)
    (hp : (computeRoots sdks).any (fun r => pathStartsWith p r) = false) :
    (p ∈ fs.dirs → p ∈ (uninstallCmd sdks version all fs).2.dirs) ∧
    (∀ ver, (ver, p) ∈ computeTargets sdks version all →
      Msg.skippedUnsafe ver p ∈ (uninstallCmd sdks version all fs).1) ∧
    (uninstallRun (computeRoots sdks) (computeTargets sdks version all) fs).1.length
      = (computeTargets sdks version all).length := by
  refine ⟨?_, ?_, uninstallRun_length _ _ _⟩
  · intro hmem
    by_cases ht : computeTargets sdks version all = []
    · rw [uninstallCmd_empty sdks version all fs ht]
      exact hmem
    · rw [uninstallCmd_run sdks version all fs ht]
      exact uninstallRun_preserves hp _ fs hmem
  · intro ver hver
    have ht : computeTargets sdks version all ≠ [] := by
      intro he
      rw [he] at hver
      cases hver
    rw [uninstallCmd_run sdks version all fs ht]
    exact List.mem_append_right _ (uninstallRun_skipped hp _ fs ver hver)

/-- Witness for C1 at a concrete input: the inventory holds one entry whose
installPath is the filesystem root, so the roots list is empty; the entry
is kept on disk and reported as skipped. -/
theorem claim_C1_witness :
    ((computeRoots [("8.0", ([Comp.rootDir] : UPath))]).any
      (fun r => pathStartsWith [Comp.rootDir] r) = false) ∧
    ([Comp.rootDir] : UPath) ∈
      (uninstallCmd [("8.0", [Comp.rootDir])] none true
        { dirs := [[Comp.rootDir]], failRm := [] }).2.dirs ∧
    Msg.skippedUnsafe "8.0" [Comp.rootDir] ∈
      (uninstallCmd [("8.0", [Comp.rootDir])] none true
        { dirs := [[Comp.rootDir]], failRm := [] }).1 := by
  have h := claim_C1 [("8.0", [Comp.rootDir])] none true
    { dirs := [[Comp.rootDir]], failRm := [] } [Comp.rootDir] (by decide)
  exact ⟨by decide, h.1 (by decide), h.2.1 "8.0" (by decide)⟩

/-- C3: the roots list used by the remover equals, as a set, the parents of
every installPath of the whole inventory, contains no duplicates, and is a
function of the inventory alone, computed before target filtering: for any
selector with a non-empty target list, the removal loop is run with
exactly `computeRoots sdks`. -/
theorem claim_C3 (sdks : List (String × UPath)) :
    (∀ r, r ∈ computeRoots sdks ↔ ∃ e ∈ sdks, pathParent e.2 = some r) ∧
    (computeRoots sdks).Nodup ∧
    (∀ version all fs, computeTargets sdks version all ≠ [] →
      uninstallCmd sdks version all fs =
        (noticeMsgs version all ++
          (uninstallRun (computeRoots sdks) (computeTargets sdks version all) fs).1,
         (uninstallRun (computeRoots sdks) (computeTargets sdks version all) fs).2)) :=
  ⟨mem_computeRoots sdks, computeRoots_nodup sdks,
   fun v a fs h => uninstallCmd_run sdks v a fs h⟩

/-- Witness for C3 at a concrete inventory: the parent of the single
installPath is a root, and the remover consumes exactly that root list. -/
theorem claim_C3_witness :
    ([Comp.rootDir, Comp.normal "a"] : UPath) ∈
      computeRoots [("8.0", [Comp.rootDir, Comp.normal "a", Comp.normal "8.0"])] ∧
    uninstallCmd [("8.0", [Comp.rootDir, Comp.normal "a", Comp.normal "8.0"])]
        (some "8.0") false
        { dirs := [[Comp.rootDir, Comp.normal "a", Comp.normal "8.0"]], failRm := [] }
      = ([Msg.removed "8.0"], { dirs := [], failRm := [] }) := by
  have h := claim_C3 [("8.0", [Comp.rootDir, Comp.normal "a", Comp.normal "8.0"])]
  refine ⟨?_, ?_⟩
  · exact (h.1 _).mpr
      ⟨("8.0", [Comp.rootDir, Comp.normal "a", Comp.normal "8.0"]), by decide, by decide⟩
  · exact (h.2.2 (some "8.0") false
      { dirs := [[Comp.rootDir, Comp.normal "a", Comp.normal "8.0"]], failRm := [] }
      (by decide)).trans (by decide)

/-- C4: a selector string with no dot selects exactly the inventory entries
whose version starts with the selector followed by a dot. -/
theorem claim_C4 (m : String) (hm : containsDot m = false)
    (sdks : List (String × UPath)) :
    computeTargets sdks (some m) false =
      sdks.filter (fun e => strStartsWith e.1 (m ++ ".")) ∧
    ∀ e, e ∈ computeTargets sdks (some m) false ↔
      e ∈ sdks ∧ strStartsWith e.1 (m ++ ".") = true := by
  constructor
  · simp [computeTargets, hm]
  · intro e
    simp [computeTargets, hm, List.mem_filter]

/-- Witness for C4: selector "8" picks "8.0.406" and "8.1.0" but neither
"18.0.0" nor "8" itself. -/
theorem claim_C4_witness :
    computeTargets [("8.0.406", ([] : UPath)), ("8.1.0", []), ("18.0.0", []), ("8", [])]
        (some "8") false
      = [("8.0.406", []), ("8.1.0", [])] ∧
    (("18.0.0", ([] : UPath)) ∉
      computeTargets [("8.0.406", ([] : UPath)), ("8.1.0", []), ("18.0.0", []), ("8", [])]
        (some "8") false) ∧
    (("8", ([] : UPath)) ∉
      computeTargets [("8.0.406", ([] : UPath)), ("8.1.0", []), ("18.0.0", []), ("8", [])]
        (some "8") false) := by
  have h := claim_C4 "8" (by decide)
    [("8.0.406", ([] : UPath)), ("8.1.0", []), ("18.0.0", []), ("8", [])]
  refine ⟨h.1.trans (by decide), ?_, ?_⟩
  · intro hmem
    have := (h.2 _).mp hmem
    exact absurd this.2 (by decide)
  · intro hmem
    have := (h.2 _).mp hmem
    exact absurd this.2 (by decide)

/-- C5: a selector string containing a dot selects exactly the inventory
entries whose version is string-equal to it; an entry whose version merely
has the selector as a proper prefix is never selected. -/
theorem claim_C5 (v : String) (hv : containsDot v = true)
    (sdks : List (String × UPath)) :
    computeTargets sdks (some v) false = sdks.filter (fun e => e.1 == v) ∧
    (∀ e, e ∈ computeTargets sdks (some v) false ↔ e ∈ sdks ∧ e.1 = v) ∧
    (∀ e, e ∈ sdks → e.1 ≠ v → e ∉ computeTargets sdks (some v) false) := by
  refine ⟨by simp [computeTargets, hv], ?_, ?_⟩
  · intro e
    simp [computeTargets, hv, List.mem_filter]
  · intro e _ hne hmem
    have : e ∈ sdks ∧ e.1 = v := by
      have h2 : e ∈ sdks.filter (fun e => e.1 == v) := by
        simpa [computeTargets, hv] using hmem
      have := List.mem_filter.mp h2
      exact ⟨this.1, by simpa using this.2⟩
    exact hne this.2

/-- Witness for C5: selector "8.0" picks the entry with version "8.0" and
not the one whose version "8.0.406" merely extends it. -/
theorem claim_C5_witness :
    computeTargets [("8.0.406", ([] : UPath)), ("8.0", [])] (some "8.0") false
      = [("8.0", [])] ∧
    (("8.0.406", ([] : UPath)) ∉
      computeTargets [("8.0.406", ([] : UPath)), ("8.0", [])] (some "8.0") false) := by
  have h := claim_C5 "8.0" (by decide) [("8.0.406", ([] : UPath)), ("8.0", [])]
  refine ⟨h.1.trans (by decide), ?_⟩
  exact h.2.2 ("8.0.406", []) (by decide) (by decide)

/-- C6: with neither a version string nor the all flag, the target list is
empty, the provide-a-version notice is emitted (followed by the nothing
matched message), the filesystem is untouched and the command completes
successfully. -/
theorem claim_C6 (sdks : List (String × UPath)) (fs : FS) :
    computeTargets sdks none false = [] ∧
    uninstallArm (Except.ok sdks) none false fs =
      Except.ok ([Msg.provideVersion, Msg.noMatching], fs) :=
  ⟨rfl, rfl⟩

/-- C8: a target under the roots whose directory is absent is reported as
not found with no deletion and the loop continues with the remaining
targets on the unchanged filesystem; a target whose recursive removal
fails is reported with its cause and the loop likewise continues. -/
theorem claim_C8 (roots : List UPath) (fs : FS) (ver : String) (p : UPath)
    (rest : List (String × UPath))
    (hroot : roots.any (fun r => pathStartsWith p r) = true) :
    (fs.existsDir p = false →
      uninstallRun roots ((ver, p) :: rest) fs =
        (Msg.notFound ver :: (uninstallRun roots rest fs).1,
         (uninstallRun roots rest fs).2)) ∧
    (∀ e, fs.existsDir p = true → fs.rmError p = some e →
      uninstallRun roots ((ver, p) :: rest) fs =
        (Msg.removeFailed ver e :: (uninstallRun roots rest fs).1,
         (uninstallRun roots rest fs).2)) := by
  constructor
  · intro hex
    simp [uninstallRun, hroot, hex]
  · intro e hex herr
    simp [uninstallRun, hroot, hex, herr]

/-- Witness for C8 at concrete inputs: an absent directory is reported as
not found, and a failing removal is reported with its cause; neither stops
the batch nor touches the filesystem. -/
theorem claim_C8_witness :
    uninstallRun [[Comp.normal "r"]] [("1.0", [Comp.normal "r", Comp.normal "1.0"])]
        { dirs := [], failRm := [] }
      = ([Msg.notFound "1.0"], { dirs := [], failRm := [] }) ∧
    uninstallRun [[Comp.normal "r"]] [("1.0", [Comp.normal "r", Comp.normal "1.0"])]
        { dirs := [[Comp.normal "r", Comp.normal "1.0"]],
          failRm := [([Comp.normal "r", Comp.normal "1.0"], "permission denied")] }
      = ([Msg.removeFailed "1.0" "permission denied"],
         { dirs := [[Comp.normal "r", Comp.normal "1.0"]],
           failRm := [([Comp.normal "r", Comp.normal "1.0"], "permission denied")] }) := by
  constructor
  · have h := (claim_C8 [[Comp.normal "r"]] { dirs := [], failRm := [] } "1.0"
      [Comp.normal "r", Comp.normal "1.0"] [] (by decide)).1 (by decide)
    exact h.trans (by decide)
  · have h := (claim_C8 [[Comp.normal "r"]]
      { dirs := [[Comp.normal "r", Comp.normal "1.0"]],
        failRm := [([Comp.normal "r", Comp.normal "1.0"], "permission denied")] } "1.0"
      [Comp.normal "r", Comp.normal "1.0"] [] (by decide)).2 "permission denied"
      (by decide) (by decide)
    exact h.trans (by decide)

/-- C9 (counterexample): the claim says a base ending in several right
brackets keeps all but the last one; on the text after the bracket of the
line "8 [x]]" the code instead strips every trailing right bracket,
yielding base "x", not "x]". -/
theorem claim_C9_counterexample :
    extractBase "x]]" = "x" ∧ claimBaseSingle "x]]" = "x]" ∧
    extractBase "x]]" ≠ claimBaseSingle "x]]" ∧
    parseSdkLine "8 [x]]" = some ("8", [Comp.normal "x", Comp.normal "8"]) :=
  ⟨by decide, by decide, by decide, by decide⟩

/-- C9 (amended): the base is obtained from the text after the first left
bracket by trimming whitespace, removing ALL trailing right bracket
characters, and trimming whitespace again. -/
theorem claim_C9 (s : String) : extractBase s = specBaseAll s := by
  unfold extractBase specBaseAll
  rw [rustTrimEndMatchesRB_eq_dropWhile]

/-- C10 (counterexample): the parser output for the line "/ [x]" is one
entry whose installPath is the filesystem root (the absolute version token
replaces the base on push); its parent is none, the roots list of that
inventory is empty, and the remover does reach the skipped-for-safety
branch on it. -/
theorem claim_C10_counterexample :
    listInstalledSdksParse "/ [x]" = [("/", [Comp.rootDir])] ∧
    computeRoots (listInstalledSdksParse "/ [x]") = [] ∧
    (¬ ∃ r ∈ computeRoots (listInstalledSdksParse "/ [x]"),
        pathStartsWith [Comp.rootDir] r = true) ∧
    (uninstallCmd (listInstalledSdksParse "/ [x]") none true
        { dirs := [[Comp.rootDir]], failRm := [] }).1
      = [Msg.skippedUnsafe "/" [Comp.rootDir]] :=
  ⟨by decide, by decide, by decide, by decide⟩

/-- C10 (amended): every parser-produced entry whose installPath has a
parent directory has that parent in the roots list computed from the same
inventory and passes the root-containment check; the skipped-for-safety
branch is reachable only for an entry whose installPath has no parent,
that is, the filesystem root. -/
theorem claim_C10 (out : String) (e : String × UPath)
    (he : e ∈ listInstalledSdksParse out) (pp : UPath)
    (hpp : pathParent e.2 = some pp) :
    pp ∈ computeRoots (listInstalledSdksParse out) ∧
    pathStartsWith e.2 pp = true ∧
    (computeRoots (listInstalledSdksParse out)).any
      (fun r => pathStartsWith e.2 r) = true := by
  have h1 : pp ∈ computeRoots (listInstalledSdksParse out) :=
    (mem_computeRoots _ pp).mpr ⟨e, he, hpp⟩
  have h2 := pathStartsWith_parent hpp
  exact ⟨h1, h2, List.any_eq_true.mpr ⟨pp, h1, h2⟩⟩

/-- Witness for the amended C10 at a concrete parsed inventory. -/
theorem claim_C10_witness :
    ([Comp.rootDir, Comp.normal "a"] : UPath) ∈
      computeRoots (listInstalledSdksParse "8.0 [/a]") ∧
    (computeRoots (listInstalledSdksParse "8.0 [/a]")).any
      (fun r => pathStartsWith [Comp.rootDir, Comp.normal "a", Comp.normal "8.0"] r)
      = true := by
  have h := claim_C10 "8.0 [/a]"
    ("8.0", [Comp.rootDir, Comp.normal "a", Comp.normal "8.0"])
    (by decide) [Comp.rootDir, Comp.normal "a"] (by decide)
  exact ⟨h.1, h.2.2⟩

/-! ## Helper lemmas: the working-directory file map -/

theorem lookupFile_setFile_same (dir : List (String × FileData)) (n : String)
    (c : FileData) : lookupFile (setFile dir n c) n = some c := by
  unfold lookupFile setFile
  simp [List.find?_cons]

theorem find_filter_keep (d : List (String × FileData)) (n m : String)
    (h : ¬ m = n) :
    (d.filter (fun e => !(e.1 == n))).find? (fun e => e.1 == m)
      = d.find? (fun e => e.1 == m) := by
  induction d with
  | nil => rfl
  | cons e t ih =>
    by_cases he : e.1 = m
    · have hk : (!(e.1 == n)) = true := by
        rw [he]
        simp [h]
      simp [List.filter_cons, hk, List.find?_cons, he, h]
    · by_cases hn : e.1 = n
      · have hk : (!(e.1 == n)) = false := by simp [hn]
        simp only [List.filter_cons, hk, Bool.false_eq_true, if_false]
        rw [ih]
        have hm : (e.1 == m) = false := by simp [he]
        simp [List.find?_cons, hm]
      · have hk : (!(e.1 == n)) = true := by simp [hn]
        have hm : (e.1 == m) = false := by simp [he]
        simp only [List.filter_cons, hk, if_true]
        simp [List.find?_cons, hm, ih]

theorem lookupFile_setFile_other (dir : List (String × FileData)) (n m : String)
    (c : FileData) (h : m ≠ n) :
    lookupFile (setFile dir n c) m = lookupFile dir m := by
  unfold lookupFile setFile
  have hm : ((n, c).1 == m) = false := by
    simp
    exact fun he => h he.symm
  rw [List.find?_cons]
  simp only [hm, Bool.false_eq_true, if_false]
  rw [find_filter_keep dir n m h]

/-- C7: for every version string, the pin writer writes the pin document
for that version to the fixed name global.json; when a file with that name
exists its prior content is first copied to global.json.bak (provided the
best-effort copy succeeds), when none exists the backup name is left
untouched, and a copy failure never blocks the primary write (the first
conjunct holds for either value of `copyOk`). -/
theorem claim_C7 (v : String) (dir : List (String × FileData)) (copyOk : Bool) :
    lookupFile (useCmd v dir copyOk) "global.json" = some (FileData.pin v) ∧
    (∀ c, lookupFile dir "global.json" = some c → copyOk = true →
      lookupFile (useCmd v dir copyOk) "global.json.bak" = some c) ∧
    (lookupFile dir "global.json" = none →
      lookupFile (useCmd v dir copyOk) "global.json.bak"
        = lookupFile dir "global.json.bak") := by
  unfold useCmd
  cases hg : lookupFile dir "global.json" with
  | none =>
    refine ⟨lookupFile_setFile_same _ _ _, ?_, ?_⟩
    · intro c hc
      cases hc
    · intro _
      show lookupFile (setFile dir "global.json" (FileData.pin v)) "global.json.bak"
        = lookupFile dir "global.json.bak"
      exact lookupFile_setFile_other dir "global.json" "global.json.bak"
        (FileData.pin v) (by decide)
  | some c0 =>
    cases copyOk with
    | false =>
      refine ⟨lookupFile_setFile_same _ _ _, ?_, ?_⟩
      · intro c _ hcopy
        cases hcopy
      · intro hnone
        cases hnone
    | true =>
      refine ⟨lookupFile_setFile_same _ _ _, ?_, ?_⟩
      · intro c hc _
        injection hc with hc
        subst hc
        show lookupFile
          (setFile (setFile dir "global.json.bak" c0) "global.json" (FileData.pin v))
          "global.json.bak" = some c0
        rw [lookupFile_setFile_other _ "global.json" "global.json.bak" _ (by decide)]
        exact lookupFile_setFile_same dir "global.json.bak" c0
      · intro hnone
        cases hnone

/-- Witness for C7: spec scenarios 3 and 4 — a fresh pin write creates the
document and no backup; a pin write over existing content first saves that
content byte-identically under the backup name. -/
theorem claim_C7_witness :
    lookupFile (useCmd "9.0.100" [] true) "global.json"
      = some (FileData.pin "9.0.100") ∧
    lookupFile (useCmd "9.0.100" [] true) "global.json.bak" = none ∧
    lookupFile (useCmd "9.0.100" [("global.json", FileData.raw "old")] true)
      "global.json.bak" = some (FileData.raw "old") ∧
    lookupFile (useCmd "9.0.100" [("global.json", FileData.raw "old")] false)
      "global.json" = some (FileData.pin "9.0.100") := by
  have h1 := claim_C7 "9.0.100" [] true
  have h2 := claim_C7 "9.0.100" [("global.json", FileData.raw "old")] true
  have h3 := claim_C7 "9.0.100" [("global.json", FileData.raw "old")] false
  exact ⟨h1.1, (h1.2.2 rfl).trans (by decide),
    h2.2.1 (FileData.raw "old") (by decide) rfl, h3.1⟩

/-- C2: a well-formed line consisting of a version token (non-empty, free
of white space and of the left bracket), a space, and a bracketed base
(non-empty, with no surrounding white space, not ending in a further right
bracket) parses to exactly one record pairing the token with the path-join
of base and token; a line with no left bracket, or whose version token or
extracted base is empty, yields no record; and a malformed line followed
by further lines does not prevent those lines from being parsed. -/
theorem claim_C2 (v base : String)
    (hv1 : v ≠ "") (hv2 : ∀ c ∈ v.data, isRustWhite c = false ∧ c ≠ '[')
    (hb1 : base ≠ "")
    (hb2 : ∀ c, base.data.head? = some c → isRustWhite c = false)
    (hb3 : ∀ c, base.data.getLast? = some c → isRustWhite c = false ∧ c ≠ ']') :
    parseSdkLine (v ++ " [" ++ base ++ "]") =
      some (v, pathPush (pathOfString base) v) ∧
    (∀ line : String, '[' ∉ line.data → parseSdkLine line = none) ∧
    (∀ line vp pp, splitOnceLB line = some (vp, pp) →
      firstToken vp = "" ∨ extractBase pp = "" → parseSdkLine line = none) ∧
    (∀ bad rest : String, '\n' ∉ bad.data → bad.data.getLast? ≠ some '\r' →
      parseSdkLine bad = none →
      listInstalledSdksParse (bad ++ "\n" ++ rest) = listInstalledSdksParse rest) := by
  have hvd : v.data ≠ [] := fun h => hv1 (show v = "" from congrArg String.mk h)
  have hnolb : '[' ∉ v.data ++ [' '] := by
    intro hm
    rcases List.mem_append.mp hm with hmv | hms
    · exact (hv2 _ hmv).2 rfl
    · exact absurd (List.mem_singleton.mp hms) (by decide)
  have hdata : (v ++ " [" ++ base ++ "]").data
      = (v.data ++ [' ']) ++ '[' :: (base.data ++ [']']) := by
    simp [String.data_append]
  have hsplit : splitOnceLB (v ++ " [" ++ base ++ "]")
      = some (String.mk (v.data ++ [' ']), String.mk (base.data ++ [']'])) := by
    unfold splitOnceLB
    rw [hdata, splitOnceLBAux_found hnolb _ []]
    simp
  have hver : firstToken (String.mk (v.data ++ [' '])) = v := by
    unfold firstToken
    show String.mk (firstTokenList (v.data ++ ' ' :: [])) = v
    rw [firstTokenList_token hvd (fun c hc => (hv2 c hc).1) []]
  have hbase : extractBase (String.mk (base.data ++ [']'])) = base :=
    extractBase_eval hb2 hb3
  refine ⟨?_, ?_, ?_, ?_⟩
  · unfold parseSdkLine
    rw [hsplit]
    simp only [hver, hbase]
    rw [if_neg]
    rintro (h | h)
    · exact hv1 h
    · exact hb1 h
  · intro line hlb
    unfold parseSdkLine splitOnceLB
    rw [splitOnceLBAux_not_found hlb []]
    rfl
  · intro line vp pp hsp hor
    unfold parseSdkLine
    rw [hsp]
    exact if_pos hor
  · exact fun bad rest hn hcr hbad => listInstalledSdksParse_skip hn hcr hbad rest

/-- Witness for C2: the concrete line "8.0.406 [/usr/share/dotnet/sdk]"
yields exactly the joined record, and a malformed line ahead of it does
not stop it from being parsed. -/
theorem claim_C2_witness :
    parseSdkLine "8.0.406 [/usr/share/dotnet/sdk]" =
      some ("8.0.406", pathPush (pathOfString "/usr/share/dotnet/sdk") "8.0.406") ∧
    listInstalledSdksParse ("bad line" ++ "\n" ++ "8.0.406 [/usr/share/dotnet/sdk]") =
      listInstalledSdksParse "8.0.406 [/usr/share/dotnet/sdk]" := by
  have h := claim_C2 "8.0.406" "/usr/share/dotnet/sdk" (by decide) (by decide)
    (by decide) (by decide) (by decide)
  exact ⟨h.1, h.2.2.2 "bad line" "8.0.406 [/usr/share/dotnet/sdk]"
    (by decide) (by decide) (by decide)⟩
